import Mathlib

/-!
Shallow embedding of the hybrid search pipeline of the case7 repository:
the `SearchService` class (searchCases, performKeywordSearch, createExcerpt)
together with the error-absorbing `VectorService.searchSimilar` boundary.
Strings are embedded as lists of characters, the JavaScript numbers that
carry relevance scores as rationals, the JavaScript `Map` as an association
list with in-place update, and the fallible vector adapter as an `Option`
input (`none` standing for a thrown embedding / index-query error).
-/

/-- Strings of the embedded program: lists of characters. -/
abbrev Str := List Char

/-- Whitespace test modelling the JavaScript regexp class `\s` on the
character set this code base actually meets (space, tab, CR, LF). -/
def isWs (c : Char) : Bool :=
  c = ' ' || c = '\t' || c = '\n' || c = '\r'

/-- The sentence-boundary characters of `createExcerpt` (`/[.!?]+/`). -/
def isSentCh (c : Char) : Bool :=
  c = '.' || c = '!' || c = '?'

/-- `String.prototype.toLowerCase`, restricted to the ASCII case mapping
implemented by `Char.toLower`. -/
def lowerStr (s : Str) : Str := s.map Char.toLower

/-- `String.prototype.trim`: strip whitespace from both ends. -/
def trim (s : Str) : Str :=
  ((s.dropWhile isWs).reverse.dropWhile isWs).reverse

/-- Scanner for `jsSplitRuns`: `acc` holds the reversed characters of the
token being collected; `skipping` is true while inside a separator run
(where further separator characters are absorbed without emitting empty
tokens, as a regex `X+` separator does). -/
def jsSplitAux (p : Char → Bool) : Str → Str → Bool → List Str
  | [], acc, _ => [acc.reverse]
  | c :: cs, acc, skipping =>
    if skipping then
      if p c then jsSplitAux p cs acc true
      else jsSplitAux p cs [c] false
    else
      if p c then acc.reverse :: jsSplitAux p cs [] true
      else jsSplitAux p cs (c :: acc) false

/-- JavaScript `s.split(re)` where `re` matches maximal nonempty runs of
characters satisfying `p` (this is `split(/\s+/)` for `p = isWs` and
`split(/[.!?]+/)` for `p = isSentCh`): the pieces between separator runs
are returned, including the empty pieces produced by a leading or a
trailing separator run, and `""` splits to `[""]`. -/
def jsSplitRuns (p : Char → Bool) (s : Str) : List Str :=
  jsSplitAux p s [] false

/-- `pat` occurs as a contiguous substring of `text`
(JavaScript `text.includes(pat)`). -/
def containsSub (pat : Str) : Str → Bool
  | [] => pat.isEmpty
  | c :: ts => pat.isPrefixOf (c :: ts) || containsSub pat ts

/-- Scanner for `countOccs`: `skip` is the number of characters still to be
consumed by the previous match before matching may resume (so occurrences
are counted non-overlapping, as the regex scanner's `lastIndex` does). -/
def countOccsAux (pat : Str) : Str → Nat → Nat
  | [], _ => 0
  | c :: ts, skip =>
    match skip with
    | Nat.succ k => countOccsAux pat ts k
    | 0 =>
      if pat.isPrefixOf (c :: ts) then 1 + countOccsAux pat ts (pat.length - 1)
      else countOccsAux pat ts 0

/-- Number of matches of the literal pattern `pat` found in `text` by
JavaScript `text.match(new RegExp(pat, 'g'))`: a left-to-right scan that,
after each match, resumes after the matched characters, so occurrences are
counted non-overlapping (an empty pattern matches at every position,
including the end). -/
def countOccs (pat : Str) (t : Str) : Nat :=
  if pat.isEmpty then t.length + 1 else countOccsAux pat t 0

/-- Number of positions of `text` at which `pat` occurs (overlapping and
adjacent occurrences all counted) — the reading of "per literal occurrence"
used by the written specification. -/
def countOccsOverlap (pat : Str) : Str → Nat
  | [] => if pat.isEmpty then 1 else 0
  | c :: ts => (if pat.isPrefixOf (c :: ts) then 1 else 0) + countOccsOverlap pat ts

/-- `Array.prototype.join(' ')`. -/
def joinSpaces : List Str → Str
  | [] => []
  | [t] => t
  | t :: ts => t ++ ' ' :: joinSpaces ts

/-- A document of the store (`Case` in `src/types/case.ts`). -/
structure Case where
  id : Str
  title : Str
  category : Str
  tags : List Str
  difficulty : Str
  lastUpdated : Str
  testedVersions : Option (List (Str × Str)) := none
  estimatedTime : Option Str := none
  prerequisites : Option (List Str) := none
  content : Str
  filePath : Str
deriving DecidableEq, Repr

/-- `CaseSearchResult` of `src/types/case.ts`; `relevanceScore` (a
JavaScript number) is embedded as a rational. -/
structure CaseSearchResult where
  id : Str
  title : Str
  category : Str
  tags : List Str
  relevanceScore : ℚ
  excerpt : Str
deriving DecidableEq, Repr

/-- Metadata carried by a vector hit. -/
structure VectorMeta where
  title : Str
  category : Str
  tags : List Str
deriving DecidableEq, Repr

/-- `VectorSearchResult` of `src/types/case.ts`. -/
structure VectorHit where
  id : Str
  score : ℚ
  metadata : Option VectorMeta := none
deriving DecidableEq, Repr

/-- The options object of `searchCases`.  `limit` is `none` when the caller
omits it (the code then defaults it to 5). -/
structure SearchOptions where
  category : Option Str := none
  difficulty : Option Str := none
  limit : Option Nat := none
deriving DecidableEq, Repr

/-- `const { limit = 5 } = options`. -/
def optsLimit (o : SearchOptions) : Nat := o.limit.getD 5

/-! ## Excerpt extraction (`SearchService.createExcerpt`) -/

/-- `query.toLowerCase().split(/\s+/)` — note: no length filter here,
unlike `performKeywordSearch`. -/
def excerptTermsOf (query : Str) : List Str :=
  jsSplitRuns isWs (lowerStr query)

/-- `content.split(/[.!?]+/).map(s => s.trim()).filter(s => s.length > 0)`. -/
def sentencesOf (content : Str) : List Str :=
  ((jsSplitRuns isSentCh content).map trim).filter (fun s => s.length > 0)

/-- `queryTerms.reduce((acc, term) => acc + (sentenceLower.includes(term) ? 1 : 0), 0)`:
the hit count of one sentence, each element of the term list contributing
separately (a repeated token is counted once per repetition). -/
def sentHits (terms : List Str) (s : Str) : Nat :=
  terms.foldl (fun acc t => acc + (if containsSub t (lowerStr s) then 1 else 0)) 0

/-- The `for (const sentence of sentences)` selection loop: keep the pair
(bestSentence, bestScore), replacing it only on a strict improvement. -/
def pickBestAux (terms : List Str) : List Str → Str × Nat → Str × Nat
  | [], best => best
  | s :: ss, (b, bs) =>
    if bs < sentHits terms s then pickBestAux terms ss (s, sentHits terms s)
    else pickBestAux terms ss (b, bs)

/-- The sentence selected by `createExcerpt` before truncation
(`bestSentence` starts as `sentences[0] || ''` with `bestScore = 0`). -/
def chosenSentence (content query : Str) : Str :=
  let sentences := sentencesOf content
  (pickBestAux (excerptTermsOf query) sentences (sentences.headD [], 0)).1

/-- `SearchService.createExcerpt(content, query, maxLength = 200)`.
`List.take (maxLength - 3)` matches `substring(0, maxLength - 3)` exactly:
both clamp a negative / truncated-at-zero bound to the empty string. -/
def createExcerpt (content query : Str) (maxLength : Nat := 200) : Str :=
  let best := chosenSentence content query
  if maxLength < best.length then best.take (maxLength - 3) ++ ("...".toList)
  else best

/-! ## Keyword scoring (`SearchService.performKeywordSearch`) -/

/-- `query.toLowerCase().split(/\s+/).filter(term => term.length > 2)`. -/
def queryTermsOf (query : Str) : List Str :=
  (jsSplitRuns isWs (lowerStr query)).filter (fun t => t.length > 2)

/-- The lowercase composite
`` `${title} ${tags.join(' ')} ${content}`.toLowerCase() ``. -/
def searchTextOf (c : Case) : Str :=
  lowerStr (c.title ++ (' ' :: (joinSpaces c.tags ++ (' ' :: c.content))))

/-- Characters for which `new RegExp(term, 'g')` is modelled: on a term of
letters and digits the constructed regex is a valid pattern that matches
the term literally.  A term containing any other character is conservatively
modelled as a regex-construction failure (which is exact for a term such as
`(((`, whose unbalanced parentheses make `new RegExp` throw a
`SyntaxError`). -/
def isPlainChar (c : Char) : Bool :=
  c.isAlpha || c.isDigit

/-- A term whose `new RegExp` compiles to a literal matcher in this model. -/
def isPlainTerm (t : Str) : Bool :=
  t.all isPlainChar

/-- `(searchText.match(new RegExp(term, 'g')) || []).length`: either the
non-overlapping global match count, or a thrown `SyntaxError` from the
regex constructor (see `isPlainChar`). -/
def jsMatchCount (term text : Str) : Except Unit Nat :=
  if isPlainTerm term then .ok (countOccs term text) else .error ()

/-- One iteration of the scoring loop of `performKeywordSearch`
(+3 for a title hit, +2 for a tag hit, +0.5 per content match). -/
def scoreTermStep (c : Case) (searchText : Str) (score : ℚ) (term : Str) :
    Except Unit ℚ :=
  let s1 := if containsSub term (lowerStr c.title) then score + 3 else score
  let s2 := if c.tags.any (fun tag => containsSub term (lowerStr tag)) then s1 + 2 else s1
  match jsMatchCount term searchText with
  | .error e => .error e
  | .ok n => .ok (s2 + n * (1 / 2))

/-- The total keyword score of one document (the body of the `map` in
`performKeywordSearch`), threading the possible regex exception. -/
def scoreCase (terms : List Str) (c : Case) : Except Unit ℚ :=
  terms.foldlM (scoreTermStep c (searchTextOf c)) 0

/-- The `CaseSearchResult` object built for a keyword match. -/
def mkKwResult (query : Str) (c : Case) (score : ℚ) : CaseSearchResult where
  id := c.id
  title := c.title
  category := c.category
  tags := c.tags
  relevanceScore := score
  excerpt := createExcerpt c.content query

/-- The `cases.map(...)` of `performKeywordSearch`, threading the regex
exception: the first throwing document aborts the whole map. -/
def keywordResults (query : Str) (terms : List Str) : List Case → Except Unit (List CaseSearchResult)
  | [] => .ok []
  | c :: cs =>
    match scoreCase terms c with
    | .error e => .error e
    | .ok s =>
      match keywordResults query terms cs with
      | .error e => .error e
      | .ok rest => .ok (mkKwResult query c s :: rest)

/-- Stable insertion of a result in front of the first element of not
larger score: the insertion step of the descending stable sort
`(a, b) => b.relevanceScore - a.relevanceScore`. -/
def insertDesc (x : CaseSearchResult) : List CaseSearchResult → List CaseSearchResult
  | [] => [x]
  | y :: ys =>
    if y.relevanceScore ≤ x.relevanceScore then x :: y :: ys
    else y :: insertDesc x ys

/-- The stable descending-by-`relevanceScore` sort used by both
`performKeywordSearch` and `searchCases` (JavaScript `Array.prototype.sort`
is stable). -/
def sortDesc (l : List CaseSearchResult) : List CaseSearchResult :=
  l.foldr insertDesc []

/-- `SearchService.performKeywordSearch(cases, query)`: score every case,
drop scores ≤ 0, sort descending — or rethrow the regex exception. -/
def performKeywordSearch (cases : List Case) (query : Str) :
    Except Unit (List CaseSearchResult) :=
  match keywordResults query (queryTermsOf query) cases with
  | .error e => .error e
  | .ok rs => .ok (sortDesc (rs.filter (fun r => decide (0 < r.relevanceScore))))

/-! ## The result mapping (`new Map<string, CaseSearchResult>()`) -/

/-- A JavaScript `Map` with string keys, as an insertion-ordered
association list whose keys are unique by construction. -/
abbrev RMap := List (Str × CaseSearchResult)

/-- `Map.prototype.set`: update in place if the key exists (keeping its
position in insertion order), append otherwise. -/
def mapSet (m : RMap) (k : Str) (v : CaseSearchResult) : RMap :=
  match m with
  | [] => [(k, v)]
  | (k', v') :: rest => if k' = k then (k', v) :: rest else (k', v') :: mapSet rest k v

/-- `Map.prototype.has`. -/
def mapHas (m : RMap) (k : Str) : Bool :=
  m.any (fun p => p.1 == k)

/-- `Map.prototype.get`. -/
def mapLookup (m : RMap) (k : Str) : Option CaseSearchResult :=
  match m with
  | [] => none
  | (k', v) :: rest => if k' = k then some v else mapLookup rest k

/-- `Array.from(map.values())` in insertion order. -/
def mapValues (m : RMap) : List CaseSearchResult :=
  m.map (fun p => p.2)

/-! ## The ranking pipeline (`SearchService.searchCases`) -/

/-- The two truthiness-guarded filters
`if (category) ... if (difficulty) ...`: a missing option — and, by
JavaScript truthiness, an empty string — leaves the list unfiltered. -/
def truthyEq (field : Case → Str) (o : Option Str) (cs : List Case) : List Case :=
  match o with
  | none => cs
  | some s => if s = [] then cs else cs.filter (fun c => field c == s)

/-- `filteredCases` after the `category` and `difficulty` filters. -/
def applyFilters (cases : List Case) (opts : SearchOptions) : List Case :=
  truthyEq (fun c => c.difficulty) opts.difficulty
    (truthyEq (fun c => c.category) opts.category cases)

/-- The `CaseSearchResult` built for a vector hit whose id was found among
the filtered cases (`relevanceScore: vectorResult.score`). -/
def mkVecResult (query : Str) (c : Case) (h : VectorHit) : CaseSearchResult where
  id := c.id
  title := c.title
  category := c.category
  tags := c.tags
  relevanceScore := h.score
  excerpt := createExcerpt c.content query

/-- One iteration of the `for (const vectorResult of vectorResults)` loop:
`filteredCases.find(c => c.id === vectorResult.id)` and, on a hit,
`results.set(caseItem.id, {...})`. -/
def vecStep (filtered : List Case) (query : Str) (m : RMap) (h : VectorHit) : RMap :=
  match filtered.find? (fun c => c.id == h.id) with
  | some c => mapSet m c.id (mkVecResult query c h)
  | none => m

/-- The `for (const vectorResult of vectorResults)` loop: look the hit's id
up among the filtered cases and `set` a result into the mapping. -/
def buildVectorMap (filtered : List Case) (query : Str) (hits : List VectorHit) : RMap :=
  hits.foldl (vecStep filtered query) []

/-- The `for (const match of keywordMatches)` loop: insert keyword matches
while the mapping holds fewer than `limit` entries. -/
def insertKeyword (limit : Nat) (m : RMap) (ms : List CaseSearchResult) : RMap :=
  ms.foldl (fun m r => if m.length < limit then mapSet m r.id r else m) m

/-- The result mapping at the end of the `try` block of `searchCases`, or
the exception that the `catch` will absorb. -/
def finalMapE (vectorResults : List VectorHit) (allCases : List Case)
    (query : Str) (opts : SearchOptions) : Except Unit RMap :=
  let filtered := applyFilters allCases opts
  let m := buildVectorMap filtered query vectorResults
  match performKeywordSearch (filtered.filter (fun c => !mapHas m c.id)) query with
  | .error e => .error e
  | .ok ms => .ok (insertKeyword (optsLimit opts) m ms)

/-- `VectorService.searchSimilar`: its `try/catch` absorbs any embedding or
index-query error and returns `[]`; on success it returns whatever hit list
the external index produced.  The adapter outcome is the `Option` input:
`some hits` for a successful round trip, `none` for a thrown error. -/
def searchSimilar (adapter : Option (List VectorHit)) : List VectorHit :=
  match adapter with
  | some hits => hits
  | none => []

/-- `SearchService.searchCases(query, options)`: vector phase, keyword
fallback, merge, stable descending sort, truncation to `limit`; the
surrounding `catch` turns any thrown error into `[]`. -/
def searchCases (adapter : Option (List VectorHit)) (allCases : List Case)
    (query : Str) (opts : SearchOptions) : List CaseSearchResult :=
  match finalMapE (searchSimilar adapter) allCases query opts with
  | .error _ => []
  | .ok m => (sortDesc (mapValues m)).take (optsLimit opts)

/-! ## Specification-side definitions

Definitions written from the wording of the specification / claims, to be
compared against the embedded code.  `tokenScoreClaim` / `keywordScoreClaim`
read the claim C2 literally (overlapping occurrences all counted);
`tokenScoreSpec` / `keywordScoreSpec` are the amended reading with the
non-overlapping global-match count the code implements.  `distinctHits` /
`chosenSentenceClaim` read claim C7 literally (distinct tokens). -/

/-- Per-token keyword score as claim C2 states it, with overlapping
occurrences all counted. -/
def tokenScoreClaim (c : Case) (t : Str) : ℚ :=
  (if t <:+: lowerStr c.title then 3 else 0) +
    (if ∃ tag ∈ c.tags, t <:+: lowerStr tag then 2 else 0) +
    (countOccsOverlap t (searchTextOf c) : ℚ) * (1 / 2)

/-- Document keyword score as claim C2 states it: sum over the surviving
query tokens. -/
def keywordScoreClaim (query : Str) (c : Case) : ℚ :=
  ((queryTermsOf query).map (tokenScoreClaim c)).sum

/-- Per-token keyword score, amended: +3 for a title substring, +2 for a
tag substring, +0.5 per non-overlapping occurrence in the composite. -/
def tokenScoreSpec (c : Case) (t : Str) : ℚ :=
  (if t <:+: lowerStr c.title then 3 else 0) +
    (if ∃ tag ∈ c.tags, t <:+: lowerStr tag then 2 else 0) +
    (countOccs t (searchTextOf c) : ℚ) * (1 / 2)

/-- Document keyword score, amended reading of claim C2. -/
def keywordScoreSpec (query : Str) (c : Case) : ℚ :=
  ((queryTermsOf query).map (tokenScoreSpec c)).sum

/-- The per-token score the code computes once the regex is known to be a
plain literal (the pure content of `scoreTermStep`). -/
def termScore (c : Case) (searchText : Str) (t : Str) : ℚ :=
  (if containsSub t (lowerStr c.title) then 3 else 0) +
    (if c.tags.any (fun tag => containsSub t (lowerStr tag)) then 2 else 0) +
    (countOccs t searchText : ℚ) * (1 / 2)

/-- The pure total score of `scoreCase` on plain terms. -/
def scoreCaseOk (terms : List Str) (c : Case) : ℚ :=
  (terms.map (termScore c (searchTextOf c))).sum

/-- Maximum of a list of naturals (0 on the empty list). -/
def natMaxList (ns : List Nat) : Nat :=
  ns.foldr max 0

/-- Hit count of one sentence as claim C7 states it: the number of DISTINCT
query tokens occurring in the sentence (case-insensitively). -/
def distinctHits (terms : List Str) (s : Str) : Nat :=
  ((terms.dedup).filter (fun t => containsSub t (lowerStr s))).length

/-- The sentence claim C7 says the excerpt operation selects: the earliest
sentence with maximal distinct-token hit count, defaulting to the first
sentence when no sentence scores above zero. -/
def chosenSentenceClaim (content query : Str) : Str :=
  let terms := excerptTermsOf query
  let sentences := sentencesOf content
  let M := natMaxList (sentences.map (distinctHits terms))
  if M = 0 then sentences.headD []
  else (sentences.find? (fun s => distinctHits terms s == M)).getD []

/-! ## Concrete material used by witnesses and counterexamples -/

/-- A store document whose title and tag match the query `stripe`. -/
def caseC1 : Case where
  id := "a".toList
  title := "stripe checkout".toList
  category := "web".toList
  tags := ["stripe".toList]
  difficulty := "beginner".toList
  lastUpdated := "2024-01-01".toList
  content := "Use stripe.".toList
  filePath := "cases/a.md".toList

/-- A document whose content has overlapping occurrences of `aaa`. -/
def caseC2ex : Case where
  id := "b".toList
  title := "xyz".toList
  category := "web".toList
  tags := []
  difficulty := "beginner".toList
  lastUpdated := "2024-01-01".toList
  content := "aaaaa".toList
  filePath := "cases/b.md".toList

/-- A document whose title contains the literal characters `(((`. -/
def caseC10ex : Case where
  id := "p".toList
  title := "x((( y".toList
  category := "web".toList
  tags := []
  difficulty := "beginner".toList
  lastUpdated := "2024-01-01".toList
  content := "body.".toList
  filePath := "cases/p.md".toList

/-- Two vector hits with the same id and different raw scores. -/
def hitA1 : VectorHit where
  id := "a".toList
  score := 1

def hitA2 : VectorHit where
  id := "a".toList
  score := 2

/-- Options providing both a category and a difficulty filter. -/
def optsC5 : SearchOptions where
  category := some ("web".toList)
  difficulty := some ("beginner".toList)
  limit := some 5

/-- Content and query separating multiplicity counting from distinct
counting in the excerpt selection. -/
def contentC7 : Str := "x foo. bar w baz.".toList

def queryC7 : Str := "foo foo bar baz".toList

/-! ## Lemmas about the string helpers -/

theorem containsSub_infix_iff (pat : Str) : ∀ t : Str, containsSub pat t = true ↔ pat <:+: t
  | [] => by
    simp [containsSub, List.isEmpty_iff]
  | c :: ts => by
    simp only [containsSub, Bool.or_eq_true, List.isPrefixOf_iff_prefix,
      containsSub_infix_iff pat ts, List.infix_cons_iff]

theorem countOccsAux_skip (pat : Str) :
    ∀ (t : Str) (k : Nat), countOccsAux pat t k = countOccsAux pat (t.drop k) 0
  | [], k => by simp [countOccsAux]
  | c :: ts, 0 => by simp
  | c :: ts, Nat.succ k => by
    rw [countOccsAux, List.drop_succ_cons, countOccsAux_skip pat ts k]

theorem countOccs_nil (pat : Str) :
    countOccs pat [] = if pat.isEmpty then 1 else 0 := by
  rw [countOccs]
  by_cases h : pat.isEmpty <;> simp [h, countOccsAux]

theorem countOccs_cons (pat : Str) (c : Char) (ts : Str) (hp : pat ≠ []) :
    countOccs pat (c :: ts) =
      if pat.isPrefixOf (c :: ts) then 1 + countOccs pat ((c :: ts).drop pat.length)
      else countOccs pat ts := by
  have h0 : pat.isEmpty = false := by
    cases pat with
    | nil => exact absurd rfl hp
    | cons a as => rfl
  simp only [countOccs, h0, Bool.false_eq_true, if_false]
  rw [countOccsAux]
  by_cases hpre : pat.isPrefixOf (c :: ts)
  · rw [if_pos hpre, if_pos hpre]
    congr 1
    rw [countOccsAux_skip]
    have h2 : (c :: ts).drop pat.length = ts.drop (pat.length - 1) := by
      rcases pat with _ | ⟨a, as⟩
      · exact absurd rfl hp
      · simp [List.drop_succ_cons]
    rw [h2]
  · rw [if_neg hpre, if_neg hpre]

theorem countOccs_short (pat : Str) (hp : pat ≠ []) :
    ∀ t : Str, t.length < pat.length → countOccs pat t = 0 := by
  intro t
  induction t with
  | nil =>
    intro _
    rw [countOccs_nil]
    cases pat with
    | nil => exact absurd rfl hp
    | cons a as => rfl
  | cons c ts ih =>
    intro hlt
    rw [countOccs_cons pat c ts hp]
    have hnp : pat.isPrefixOf (c :: ts) = false := by
      by_contra hc
      have hpre : pat <+: c :: ts :=
        List.isPrefixOf_iff_prefix.mp (by revert hc; cases pat.isPrefixOf (c :: ts) <;> simp)
      exact absurd hpre.length_le (by omega)
    rw [hnp]
    simp only [Bool.false_eq_true, if_false]
    exact ih (by simp at hlt ⊢; omega)

theorem countOccs_empty_pat (t : Str) : countOccs [] t = t.length + 1 := by
  rw [countOccs]
  simp

theorem countOccs_append_ge (pat : Str) (hp : pat ≠ []) (t b : Str) :
    countOccs pat t ≤ countOccs pat (t ++ b) := by
  have hp1 : 1 ≤ pat.length := List.length_pos.mpr hp
  have H : ∀ n : Nat, ∀ t b : Str, t.length ≤ n →
      countOccs pat t ≤ countOccs pat (t ++ b) := by
    intro n
    induction n with
    | zero =>
      intro t b ht
      have : t = [] := List.eq_nil_of_length_eq_zero (by omega)
      subst this
      rw [countOccs_nil, List.nil_append]
      cases pat with
      | nil => exact absurd rfl hp
      | cons a as => simp
    | succ n ih =>
      intro t b ht
      match t with
      | [] =>
        rw [countOccs_nil, List.nil_append]
        cases pat with
        | nil => exact absurd rfl hp
        | cons a as => simp
      | c :: ts =>
        rw [List.cons_append, countOccs_cons pat c ts hp,
          countOccs_cons pat c (ts ++ b) hp, ← List.cons_append]
        by_cases h1 : pat.isPrefixOf (c :: ts)
        · have hpre : pat <+: c :: ts := List.isPrefixOf_iff_prefix.mp h1
          have h2 : pat.isPrefixOf ((c :: ts) ++ b) =true :=
            List.isPrefixOf_iff_prefix.mpr (hpre.trans (List.prefix_append _ _))
          rw [h1, h2]
          simp only [if_true]
          have hlen : pat.length ≤ (c :: ts).length := hpre.length_le
          rw [List.drop_append_of_le_length hlen]
          have hrec : ((c :: ts).drop pat.length).length ≤ n := by
            simp only [List.length_drop, List.length_cons]
            simp only [List.length_cons] at ht
            omega
          exact Nat.add_le_add_left (ih _ b hrec) 1
        · by_cases h2 : pat.isPrefixOf ((c :: ts) ++ b)
          · have hgt : (c :: ts).length < pat.length := by
              by_contra hc
              push_neg at hc
              have hpre2 : pat <+: (c :: ts) ++ b := List.isPrefixOf_iff_prefix.mp h2
              have : pat = ((c :: ts) ++ b).take pat.length := List.prefix_iff_eq_take.mp hpre2
              rw [List.take_append_of_le_length hc] at this
              have : pat <+: c :: ts := List.prefix_iff_eq_take.mpr this
              exact absurd (List.isPrefixOf_iff_prefix.mpr this) (by simp [h1])
            have hts : countOccs pat ts = 0 := by
              apply countOccs_short pat hp
              simp only [List.length_cons] at hgt
              omega
            simp only [h1, Bool.false_eq_true, if_false, h2, if_true, hts]
            omega
          · simp only [h1, h2, Bool.false_eq_true, if_false]
            apply ih
            simp only [List.length_cons] at ht
            omega
  exact H t.length t b le_rfl

theorem countOccs_append_self (pat : Str) (hp : pat ≠ []) (t : Str) :
    countOccs pat t + 1 ≤ countOccs pat (t ++ pat) := by
  have hp1 : 1 ≤ pat.length := List.length_pos.mpr hp
  have hbase : countOccs pat pat = 1 := by
    match pat, hp with
    | q :: qs, _ =>
      rw [countOccs_cons (q :: qs) q qs (by simp)]
      have : (q :: qs).isPrefixOf (q :: qs) = true :=
        List.isPrefixOf_iff_prefix.mpr List.prefix_rfl
      rw [this]
      simp only [if_true, List.drop_length]
      rw [countOccs_nil]
      simp
  have H : ∀ n : Nat, ∀ t : Str, t.length ≤ n →
      countOccs pat t + 1 ≤ countOccs pat (t ++ pat) := by
    intro n
    induction n with
    | zero =>
      intro t ht
      have : t = [] := List.eq_nil_of_length_eq_zero (by omega)
      subst this
      rw [countOccs_nil, List.nil_append, hbase]
      cases pat with
      | nil => exact absurd rfl hp
      | cons a as => simp
    | succ n ih =>
      intro t ht
      match t with
      | [] =>
        rw [countOccs_nil, List.nil_append, hbase]
        cases pat with
        | nil => exact absurd rfl hp
        | cons a as => simp
      | c :: ts =>
        rw [List.cons_append, countOccs_cons pat c ts hp,
          countOccs_cons pat c (ts ++ pat) hp, ← List.cons_append]
        by_cases h1 : pat.isPrefixOf (c :: ts)
        · have hpre : pat <+: c :: ts := List.isPrefixOf_iff_prefix.mp h1
          have h2 : pat.isPrefixOf ((c :: ts) ++ pat) = true :=
            List.isPrefixOf_iff_prefix.mpr (hpre.trans (List.prefix_append _ _))
          rw [h1, h2]
          simp only [if_true]
          have hlen : pat.length ≤ (c :: ts).length := hpre.length_le
          rw [List.drop_append_of_le_length hlen]
          have hrec : ((c :: ts).drop pat.length).length ≤ n := by
            simp only [List.length_drop, List.length_cons]
            simp only [List.length_cons] at ht
            omega
          have := ih _ hrec
          omega
        · by_cases h2 : pat.isPrefixOf ((c :: ts) ++ pat)
          · have hgt : (c :: ts).length < pat.length := by
              by_contra hc
              push_neg at hc
              have hpre2 : pat <+: (c :: ts) ++ pat := List.isPrefixOf_iff_prefix.mp h2
              have : pat = ((c :: ts) ++ pat).take pat.length := List.prefix_iff_eq_take.mp hpre2
              rw [List.take_append_of_le_length hc] at this
              have : pat <+: c :: ts := List.prefix_iff_eq_take.mpr this
              exact absurd (List.isPrefixOf_iff_prefix.mpr this) (by simp [h1])
            have hts : countOccs pat ts = 0 := by
              apply countOccs_short pat hp
              simp only [List.length_cons] at hgt
              omega
            simp only [h1, Bool.false_eq_true, if_false, h2, if_true, hts]
            omega
          · simp only [h1, h2, Bool.false_eq_true, if_false]
            have : ts.length ≤ n := by
              simp only [List.length_cons] at ht
              omega
            exact ih ts this
  exact H t.length t le_rfl

theorem char_toLower_def (c : Char) :
    c.toLower = if 65 ≤ c.toNat ∧ c.toNat ≤ 90 then Char.ofNat (c.toNat + 32) else c := rfl

theorem char_toNat_ofNat_valid (n : Nat) (h : n.isValidChar) :
    (Char.ofNat n).toNat = n := by
  simp only [Char.ofNat, dif_pos h, Char.ofNatAux, Char.toNat, UInt32.toNat]
  simp

theorem char_toLower_idem (c : Char) : c.toLower.toLower = c.toLower := by
  by_cases h : 65 ≤ c.toNat ∧ c.toNat ≤ 90
  · have hv : (c.toNat + 32).isValidChar := Or.inl (by omega)
    have h2 : (Char.ofNat (c.toNat + 32)).toNat = c.toNat + 32 :=
      char_toNat_ofNat_valid _ hv
    rw [char_toLower_def c, if_pos h, char_toLower_def, h2, if_neg (by omega)]
  · rw [char_toLower_def c, if_neg h, char_toLower_def c, if_neg h]

theorem mem_jsSplitAux_sublist (p : Char → Bool) :
    ∀ (l acc : Str) (skipping : Bool) (s : Str),
      s ∈ jsSplitAux p l acc skipping → s.Sublist (acc.reverse ++ l)
  | [], acc, skipping, s => by
    intro hs
    rw [jsSplitAux] at hs
    rcases List.mem_singleton.mp hs with rfl
    simp
  | c :: cs, acc, skipping, s => by
    intro hs
    rw [jsSplitAux] at hs
    by_cases hskip : skipping
    · rw [if_pos hskip] at hs
      by_cases hpc : p c
      · rw [if_pos hpc] at hs
        exact (mem_jsSplitAux_sublist p cs acc true s hs).trans
          (List.Sublist.append_left (List.sublist_cons_self c cs) acc.reverse)
      · rw [if_neg hpc] at hs
        have h1 := mem_jsSplitAux_sublist p cs [c] false s hs
        simp only [List.reverse_cons, List.reverse_nil, List.nil_append,
          List.singleton_append] at h1
        exact h1.trans (List.sublist_append_right acc.reverse (c :: cs))
    · rw [if_neg hskip] at hs
      by_cases hpc : p c
      · rw [if_pos hpc] at hs
        rcases List.mem_cons.mp hs with rfl | hs2
        · exact (List.prefix_append acc.reverse (c :: cs)).sublist
        · have h1 := mem_jsSplitAux_sublist p cs [] true s hs2
          simp only [List.reverse_nil, List.nil_append] at h1
          exact (h1.trans (List.sublist_cons_self c cs)).trans
            (List.sublist_append_right acc.reverse (c :: cs))
      · rw [if_neg hpc] at hs
        have h1 := mem_jsSplitAux_sublist p cs (c :: acc) false s hs
        simp only [List.reverse_cons] at h1
        rw [List.append_assoc, List.singleton_append] at h1
        exact h1

theorem mem_jsSplitRuns_sublist (p : Char → Bool) (l s : Str)
    (hs : s ∈ jsSplitRuns p l) : s.Sublist l := by
  have h1 := mem_jsSplitAux_sublist p l [] false s hs
  simpa using h1

theorem lowerStr_of_mem_queryTerms (q t : Str) (ht : t ∈ queryTermsOf q) :
    lowerStr t = t := by
  have ht' : t ∈ jsSplitRuns isWs (lowerStr q) := List.mem_of_mem_filter ht
  have hsub : t.Sublist (lowerStr q) := mem_jsSplitRuns_sublist _ _ _ ht'
  have hchar : ∀ c ∈ t, c.toLower = c := by
    intro c hc
    have : c ∈ lowerStr q := hsub.subset hc
    rcases List.mem_map.mp this with ⟨x, _, hx⟩
    rw [← hx]
    exact char_toLower_idem x
  have : t.map Char.toLower = t.map id := List.map_congr_left hchar
  rw [lowerStr, this, List.map_id]

theorem ne_nil_of_mem_queryTerms (q t : Str) (ht : t ∈ queryTermsOf q) :
    t ≠ [] := by
  have h2 := List.of_mem_filter ht
  intro hc
  subst hc
  simp at h2

/-! ## Lemmas about the stable descending sort -/

theorem insertDesc_perm (x : CaseSearchResult) :
    ∀ l : List CaseSearchResult, (insertDesc x l).Perm (x :: l)
  | [] => List.Perm.refl _
  | y :: ys => by
    rw [insertDesc]
    split
    · exact List.Perm.refl _
    · exact ((insertDesc_perm x ys).cons y).trans (List.Perm.swap x y ys)

theorem sortDesc_perm : ∀ l : List CaseSearchResult, (sortDesc l).Perm l
  | [] => List.Perm.refl _
  | x :: xs => by
    have h1 : sortDesc (x :: xs) = insertDesc x (sortDesc xs) := rfl
    rw [h1]
    exact (insertDesc_perm x (sortDesc xs)).trans ((sortDesc_perm xs).cons x)

theorem mem_insertDesc (x a : CaseSearchResult) (l : List CaseSearchResult) :
    a ∈ insertDesc x l ↔ a = x ∨ a ∈ l := by
  rw [(insertDesc_perm x l).mem_iff, List.mem_cons]

theorem insertDesc_pairwise (x : CaseSearchResult) :
    ∀ l : List CaseSearchResult,
      l.Pairwise (fun a b => b.relevanceScore ≤ a.relevanceScore) →
      (insertDesc x l).Pairwise (fun a b => b.relevanceScore ≤ a.relevanceScore)
  | [], _ => by simp [insertDesc]
  | y :: ys, h => by
    rw [insertDesc]
    rcases List.pairwise_cons.mp h with ⟨hy, hys⟩
    split
    case isTrue hle =>
      refine List.pairwise_cons.mpr ⟨?_, h⟩
      intro b hb
      rcases List.mem_cons.mp hb with rfl | hb
      · exact hle
      · exact le_trans (hy b hb) hle
    case isFalse hgt =>
      push_neg at hgt
      refine List.pairwise_cons.mpr ⟨?_, insertDesc_pairwise x ys hys⟩
      intro b hb
      rcases (mem_insertDesc x b ys).mp hb with rfl | hb
      · exact le_of_lt hgt
      · exact hy b hb

theorem sortDesc_pairwise :
    ∀ l : List CaseSearchResult,
      (sortDesc l).Pairwise (fun a b => b.relevanceScore ≤ a.relevanceScore)
  | [] => by simp [sortDesc]
  | x :: xs => by
    have h1 : sortDesc (x :: xs) = insertDesc x (sortDesc xs) := rfl
    rw [h1]
    exact insertDesc_pairwise x (sortDesc xs) (sortDesc_pairwise xs)

theorem filter_insertDesc (x : CaseSearchResult) (s : ℚ) :
    ∀ l : List CaseSearchResult,
      (insertDesc x l).filter (fun r => decide (r.relevanceScore = s)) =
        if x.relevanceScore = s then
          x :: l.filter (fun r => decide (r.relevanceScore = s))
        else l.filter (fun r => decide (r.relevanceScore = s))
  | [] => by
    rw [insertDesc]
    by_cases hx : x.relevanceScore = s <;> simp [hx]
  | y :: ys => by
    rw [insertDesc]
    split
    case isTrue hle =>
      by_cases hx : x.relevanceScore = s <;> simp [List.filter_cons, hx]
    case isFalse hgt =>
      push_neg at hgt
      rw [List.filter_cons, List.filter_cons, filter_insertDesc x s ys]
      by_cases hx : x.relevanceScore = s
      · have hy : ¬ y.relevanceScore = s := by
          rw [← hx]; exact ne_of_gt hgt
        simp [hx, hy]
      · simp [hx]

theorem sortDesc_filter_eq (s : ℚ) :
    ∀ l : List CaseSearchResult,
      (sortDesc l).filter (fun r => decide (r.relevanceScore = s)) =
        l.filter (fun r => decide (r.relevanceScore = s))
  | [] => rfl
  | x :: xs => by
    have h1 : sortDesc (x :: xs) = insertDesc x (sortDesc xs) := rfl
    rw [h1, filter_insertDesc, sortDesc_filter_eq s xs, List.filter_cons]
    by_cases hx : x.relevanceScore = s <;> simp [hx]

/-! ## Lemmas about the result mapping -/

theorem mapLookup_mapSet (k : Str) (v : CaseSearchResult) (i : Str) :
    ∀ m : RMap, mapLookup (mapSet m k v) i =
      if k = i then some v else mapLookup m i
  | [] => by
    rw [mapSet, mapLookup]
    by_cases h : k = i <;> simp [h, mapLookup]
  | (k', v') :: rest => by
    by_cases h1 : k' = k
    · subst h1
      by_cases h2 : k' = i
      · subst h2
        simp [mapSet, mapLookup]
      · simp [mapSet, mapLookup, h2]
    · by_cases h2 : k' = i
      · subst h2
        have hki : ¬ k = k' := fun h => h1 h.symm
        simp [mapSet, h1, mapLookup, hki]
      · simp [mapSet, h1, mapLookup, h2, mapLookup_mapSet k v i rest]

theorem mem_mapSet (k : Str) (v : CaseSearchResult) :
    ∀ m : RMap, ∀ p ∈ mapSet m k v, p.2 = v ∨ p ∈ m
  | [] => by
    intro p hp
    rw [mapSet] at hp
    rcases List.mem_singleton.mp hp with rfl
    left; rfl
  | (k', v') :: rest => by
    intro p hp
    rw [mapSet] at hp
    split at hp
    · rcases List.mem_cons.mp hp with rfl | h
      · left; rfl
      · right; exact List.mem_cons_of_mem _ h
    · rcases List.mem_cons.mp hp with rfl | h
      · right; exact List.mem_cons_self _ _
      · rcases mem_mapSet k v rest p h with h2 | h2
        · left; exact h2
        · right; exact List.mem_cons_of_mem _ h2

theorem mem_mapValues (x : CaseSearchResult) (m : RMap) :
    x ∈ mapValues m ↔ ∃ p ∈ m, p.2 = x := by
  rw [mapValues, List.mem_map]

theorem mem_mapValues_mapSet (k : Str) (v x : CaseSearchResult) (m : RMap)
    (hx : x ∈ mapValues (mapSet m k v)) : x = v ∨ x ∈ mapValues m := by
  rcases (mem_mapValues x _).mp hx with ⟨p, hp, hpx⟩
  rcases mem_mapSet k v m p hp with h | h
  · left; rw [← hpx, h]
  · right; exact (mem_mapValues x m).mpr ⟨p, h, hpx⟩

theorem mem_mapValues_insertKeyword (limit : Nat) (x : CaseSearchResult) :
    ∀ (ms : List CaseSearchResult) (m : RMap),
      x ∈ mapValues (insertKeyword limit m ms) → x ∈ mapValues m ∨ x ∈ ms
  | [], m => by
    intro hx
    exact Or.inl hx
  | r :: ms, m => by
    intro hx
    have hstep : insertKeyword limit m (r :: ms) =
        insertKeyword limit (if m.length < limit then mapSet m r.id r else m) ms := rfl
    rw [hstep] at hx
    rcases mem_mapValues_insertKeyword limit x ms _ hx with h | h
    · by_cases hl : m.length < limit
      · rw [if_pos hl] at h
        rcases mem_mapValues_mapSet r.id r x m h with h2 | h2
        · right; simp [h2]
        · left; exact h2
      · rw [if_neg hl] at h
        left; exact h
    · right
      exact List.mem_cons_of_mem r h

theorem mapLookup_vecStep_ne (filtered : List Case) (q : Str) (m : RMap)
    (h : VectorHit) (i : Str) (hne : h.id ≠ i) :
    mapLookup (vecStep filtered q m h) i = mapLookup m i := by
  rw [vecStep]
  rcases hf : filtered.find? (fun c => c.id == h.id) with _ | c
  · rw [hf]
  · rw [hf]
    have hc : c.id = h.id := by
      have := List.find?_some hf
      simpa using this
    rw [mapLookup_mapSet, if_neg (by rw [hc]; exact hne)]

theorem mapLookup_foldl_vecStep (filtered : List Case) (q : Str) (i : Str) :
    ∀ (hits : List VectorHit) (m : RMap),
      mapLookup (hits.foldl (vecStep filtered q) m) i =
        match filtered.find? (fun c => c.id == i) with
        | none => mapLookup m i
        | some c =>
          match (hits.filter (fun h => h.id == i)).getLast? with
          | some h => some (mkVecResult q c h)
          | none => mapLookup m i
  | [], m => by
    rcases hfind : filtered.find? (fun c => c.id == i) with _ | c <;> simp [hfind]
  | h :: hs, m => by
    have hstep : (h :: hs).foldl (vecStep filtered q) m =
        hs.foldl (vecStep filtered q) (vecStep filtered q m h) := rfl
    rw [hstep, mapLookup_foldl_vecStep filtered q i hs _]
    rcases hfind : filtered.find? (fun c => c.id == i) with _ | c
    · -- no filtered case has id `i`: no step ever writes key `i`.
      simp only [hfind]
      have hlook : mapLookup (vecStep filtered q m h) i = mapLookup m i := by
        rw [vecStep]
        rcases hf2 : filtered.find? (fun c => c.id == h.id) with _ | c'
        · rw [hf2]
        · rw [hf2]
          have hmem := List.mem_of_find?_eq_some hf2
          have hni : ¬ (c'.id == i) = true := List.find?_eq_none.mp hfind c' hmem
          rw [mapLookup_mapSet, if_neg (by simpa using hni)]
      rw [hlook]
    · simp only [hfind]
      by_cases hh : h.id = i
      · rw [List.filter_cons_of_pos (by simp [hh])]
        rcases hfl : hs.filter (fun x => x.id == i) with _ | ⟨x, xs⟩
        · -- the new hit is the last relevant one: the step wrote its value.
          simp only [hfl, List.getLast?_nil, List.getLast?_singleton]
          have hvs : vecStep filtered q m h = mapSet m c.id (mkVecResult q c h) := by
            rw [vecStep]
            have hfun : (fun c : Case => c.id == h.id) = (fun c : Case => c.id == i) := by
              funext x
              rw [hh]
            rw [hfun, hfind]
          rw [hvs, mapLookup_mapSet]
          have hc : c.id = i := by
            have := List.find?_some hfind
            simpa using this
          rw [if_pos hc]
        · simp only [hfl, List.getLast?_cons_cons,
            List.getLast?_eq_getLast (x :: xs) (by simp)]
      · rw [List.filter_cons_of_neg (by simp [hh])]
        rcases hfl : hs.filter (fun x => x.id == i) with _ | ⟨x, xs⟩
        · simp only [hfl, List.getLast?_nil]
          rw [mapLookup_vecStep_ne filtered q m h i hh]
        · simp only [hfl, List.getLast?_eq_getLast (x :: xs) (by simp)]

theorem mem_values_foldl_vecStep (filtered : List Case) (q : Str)
    (x : CaseSearchResult) :
    ∀ (hits : List VectorHit) (m : RMap),
      x ∈ mapValues (hits.foldl (vecStep filtered q) m) →
      x ∈ mapValues m ∨ ∃ c ∈ filtered, ∃ h : VectorHit, x = mkVecResult q c h
  | [], m => fun hx => Or.inl hx
  | h :: hs, m => by
    intro hx
    have hstep : (h :: hs).foldl (vecStep filtered q) m =
        hs.foldl (vecStep filtered q) (vecStep filtered q m h) := rfl
    rw [hstep] at hx
    rcases mem_values_foldl_vecStep filtered q x hs _ hx with h1 | h1
    · rw [vecStep] at h1
      rcases hf : filtered.find? (fun c => c.id == h.id) with _ | c
      · rw [hf] at h1
        exact Or.inl h1
      · rw [hf] at h1
        rcases mem_mapValues_mapSet _ _ _ _ h1 with h2 | h2
        · exact Or.inr ⟨c, List.mem_of_find?_eq_some hf, h, h2⟩
        · exact Or.inl h2
    · exact Or.inr h1

theorem mem_values_buildVectorMap (filtered : List Case) (q : Str)
    (hits : List VectorHit) (x : CaseSearchResult)
    (hx : x ∈ mapValues (buildVectorMap filtered q hits)) :
    ∃ c ∈ filtered, ∃ h : VectorHit, x = mkVecResult q c h := by
  rcases mem_values_foldl_vecStep filtered q x hits [] hx with h | h
  · simp [mapValues] at h
  · exact h

/-! ## Lemmas about keyword scoring -/

theorem scoreTermStep_ok (c : Case) (st : Str) (acc : ℚ) (t : Str)
    (ht : isPlainTerm t = true) :
    scoreTermStep c st acc t = .ok (acc + termScore c st t) := by
  rw [scoreTermStep, jsMatchCount, if_pos ht, termScore]
  by_cases h1 : containsSub t (lowerStr c.title) <;>
    by_cases h2 : c.tags.any (fun tag => containsSub t (lowerStr tag)) <;>
    simp [h1, h2] <;> ring_nf

theorem except_ok_bind {α β : Type} (x : α) (g : α → Except Unit β) :
    (Except.ok x >>= g) = g x := rfl

theorem foldlM_scoreTermStep_ok (c : Case) (st : Str) :
    ∀ (terms : List Str), (∀ t ∈ terms, isPlainTerm t = true) →
      ∀ acc : ℚ, List.foldlM (scoreTermStep c st) acc terms =
        .ok (acc + (terms.map (termScore c st)).sum)
  | [], _ => by
    intro acc
    simp only [List.foldlM_nil, List.map_nil, List.sum_nil, add_zero]
    rfl
  | t :: ts, hplain => by
    intro acc
    rw [List.foldlM_cons, scoreTermStep_ok c st acc t (hplain t (List.mem_cons_self t ts))]
    have hrest := foldlM_scoreTermStep_ok c st ts
      (fun u hu => hplain u (List.mem_cons_of_mem t hu)) (acc + termScore c st t)
    rw [except_ok_bind]
    show List.foldlM (scoreTermStep c st) (acc + termScore c st t) ts = _
    rw [hrest]
    simp only [List.map_cons, List.sum_cons]
    congr 1
    ring

theorem scoreCase_ok (terms : List Str) (c : Case)
    (hplain : ∀ t ∈ terms, isPlainTerm t = true) :
    scoreCase terms c = .ok (scoreCaseOk terms c) := by
  rw [scoreCase, foldlM_scoreTermStep_ok c (searchTextOf c) terms hplain 0, scoreCaseOk]
  rw [zero_add]

theorem termScore_eq_tokenScoreSpec (c : Case) (t : Str) :
    termScore c (searchTextOf c) t = tokenScoreSpec c t := by
  rw [termScore, tokenScoreSpec]
  have h1 : containsSub t (lowerStr c.title) = true ↔ t <:+: lowerStr c.title :=
    containsSub_infix_iff t (lowerStr c.title)
  have h2 : (c.tags.any (fun tag => containsSub t (lowerStr tag))) = true ↔
      ∃ tag ∈ c.tags, t <:+: lowerStr tag := by
    rw [List.any_eq_true]
    constructor
    · rintro ⟨tag, htag, hc⟩
      exact ⟨tag, htag, (containsSub_infix_iff t (lowerStr tag)).mp hc⟩
    · rintro ⟨tag, htag, hc⟩
      exact ⟨tag, htag, (containsSub_infix_iff t (lowerStr tag)).mpr hc⟩
  by_cases hb1 : t <:+: lowerStr c.title
  · rw [if_pos ((h1.mpr hb1 : _)), if_pos hb1]
    by_cases hb2 : ∃ tag ∈ c.tags, t <:+: lowerStr tag
    · rw [if_pos (h2.mpr hb2), if_pos hb2]
    · rw [if_neg (fun hc => hb2 (h2.mp hc)), if_neg hb2]
  · rw [if_neg (fun hc => hb1 (h1.mp hc)), if_neg hb1]
    by_cases hb2 : ∃ tag ∈ c.tags, t <:+: lowerStr tag
    · rw [if_pos (h2.mpr hb2), if_pos hb2]
    · rw [if_neg (fun hc => hb2 (h2.mp hc)), if_neg hb2]

theorem scoreCaseOk_eq_keywordScoreSpec (q : Str) (c : Case) :
    scoreCaseOk (queryTermsOf q) c = keywordScoreSpec q c := by
  rw [scoreCaseOk, keywordScoreSpec]
  congr 1
  exact List.map_congr_left (fun t _ => termScore_eq_tokenScoreSpec c t)

theorem tokenScoreSpec_nonneg (c : Case) (t : Str) : 0 ≤ tokenScoreSpec c t := by
  rw [tokenScoreSpec]
  have h1 : (0:ℚ) ≤ if t <:+: lowerStr c.title then 3 else 0 := by
    split <;> norm_num
  have h2 : (0:ℚ) ≤ if ∃ tag ∈ c.tags, t <:+: lowerStr tag then 2 else 0 := by
    split <;> norm_num
  have h3 : (0:ℚ) ≤ (countOccs t (searchTextOf c) : ℚ) * (1 / 2) := by
    apply mul_nonneg (Nat.cast_nonneg _)
    norm_num
  linarith

theorem keywordScoreSpec_nonneg (q : Str) (c : Case) : 0 ≤ keywordScoreSpec q c := by
  rw [keywordScoreSpec]
  apply List.sum_nonneg
  intro x hx
  rcases List.mem_map.mp hx with ⟨t, _, rfl⟩
  exact tokenScoreSpec_nonneg c t

theorem keywordResults_ok (q : Str) (terms : List Str)
    (hplain : ∀ t ∈ terms, isPlainTerm t = true) :
    ∀ cs : List Case,
      keywordResults q terms cs =
        .ok (cs.map (fun c => mkKwResult q c (scoreCaseOk terms c)))
  | [] => rfl
  | c :: cs => by
    rw [keywordResults, scoreCase_ok terms c hplain,
      keywordResults_ok q terms hplain cs, List.map_cons]

theorem mem_keywordResults_ok (q : Str) (terms : List Str) :
    ∀ (cs : List Case) (rs : List CaseSearchResult),
      keywordResults q terms cs = .ok rs →
      ∀ x ∈ rs, ∃ c ∈ cs, ∃ s : ℚ, x = mkKwResult q c s
  | [], rs => by
    intro h x hx
    rw [keywordResults] at h
    injection h with h2
    subst h2
    simp at hx
  | c :: cs, rs => by
    intro h x hx
    rw [keywordResults] at h
    rcases hsc : scoreCase terms c with e | s
    · simp only [hsc] at h
      exact Except.noConfusion h
    · simp only [hsc] at h
      rcases hkr : keywordResults q terms cs with e | rest
      · simp only [hkr] at h
        exact Except.noConfusion h
      · simp only [hkr] at h
        injection h with h2
        subst h2
        rcases List.mem_cons.mp hx with rfl | hx2
        · exact ⟨c, List.mem_cons_self c cs, s, rfl⟩
        · rcases mem_keywordResults_ok q terms cs rest hkr x hx2 with ⟨c', hc', s', hs'⟩
          exact ⟨c', List.mem_cons_of_mem c hc', s', hs'⟩

/-! ## Lemmas about the filters -/

theorem mem_truthyEq (field : Case → Str) (o : Option Str) (cs : List Case)
    (c : Case) (hc : c ∈ truthyEq field o cs) :
    c ∈ cs ∧ ∀ s, o = some s → s ≠ [] → field c = s := by
  rcases o with _ | s
  · exact ⟨hc, fun s hs => by cases hs⟩
  · rw [truthyEq] at hc
    by_cases hs : s = []
    · rw [if_pos hs] at hc
      refine ⟨hc, ?_⟩
      rintro s' hs' hne
      rcases Option.some_inj.mp hs' with rfl
      exact absurd hs hne
    · rw [if_neg hs] at hc
      rcases List.mem_filter.mp hc with ⟨hmem, hbeq⟩
      refine ⟨hmem, ?_⟩
      rintro s' hs' _
      rcases Option.some_inj.mp hs' with rfl
      simpa using hbeq

theorem mem_applyFilters (cases : List Case) (opts : SearchOptions) (c : Case)
    (hc : c ∈ applyFilters cases opts) :
    c ∈ cases ∧ (∀ s, opts.category = some s → s ≠ [] → c.category = s) ∧
      (∀ s, opts.difficulty = some s → s ≠ [] → c.difficulty = s) := by
  rw [applyFilters] at hc
  rcases mem_truthyEq _ _ _ c hc with ⟨hc2, hdif⟩
  rcases mem_truthyEq _ _ _ c hc2 with ⟨hc3, hcat⟩
  exact ⟨hc3, hcat, hdif⟩

theorem performKeywordSearch_ok (cases : List Case) (q : Str)
    (hplain : ∀ t ∈ queryTermsOf q, isPlainTerm t = true) :
    performKeywordSearch cases q =
      .ok (sortDesc ((cases.map (fun c => mkKwResult q c (scoreCaseOk (queryTermsOf q) c))).filter
        (fun r => decide (0 < r.relevanceScore)))) := by
  rw [performKeywordSearch, keywordResults_ok q _ hplain cases]

theorem mem_performKeywordSearch_ok (cases : List Case) (q : Str)
    (ms : List CaseSearchResult) (h : performKeywordSearch cases q = .ok ms)
    (x : CaseSearchResult) (hx : x ∈ ms) :
    ∃ c ∈ cases, ∃ s : ℚ, x = mkKwResult q c s := by
  rw [performKeywordSearch] at h
  rcases hkr : keywordResults q (queryTermsOf q) cases with e | rs
  · simp only [hkr] at h
    exact Except.noConfusion h
  · simp only [hkr] at h
    injection h with h2
    subst h2
    have hx2 : x ∈ rs.filter (fun r => decide (0 < r.relevanceScore)) :=
      (sortDesc_perm _).subset hx
    exact mem_keywordResults_ok q (queryTermsOf q) cases rs hkr x
      (List.mem_of_mem_filter hx2)

/-! ## Lemmas about the excerpt selection -/

theorem natMaxList_nil : natMaxList [] = 0 := rfl

theorem natMaxList_cons (n : Nat) (ns : List Nat) :
    natMaxList (n :: ns) = max n (natMaxList ns) := rfl

theorem le_natMaxList_of_mem : ∀ (ns : List Nat) (x : Nat), x ∈ ns → x ≤ natMaxList ns
  | [], x => by simp
  | n :: ns, x => by
    intro hx
    rw [natMaxList_cons]
    rcases List.mem_cons.mp hx with rfl | hx2
    · omega
    · have := le_natMaxList_of_mem ns x hx2
      omega

theorem pickBestAux_inv (terms : List Str) :
    ∀ (ss : List Str) (b : Str) (bs : Nat),
      pickBestAux terms ss (b, bs) =
        if natMaxList (ss.map (sentHits terms)) ≤ bs then (b, bs)
        else
          ((ss.find? (fun s => sentHits terms s == natMaxList (ss.map (sentHits terms)))).getD [],
            natMaxList (ss.map (sentHits terms)))
  | [], b, bs => by
    simp [pickBestAux, natMaxList]
  | s :: ss, b, bs => by
    rw [pickBestAux]
    simp only [List.map_cons, natMaxList_cons]
    by_cases hbs : bs < sentHits terms s
    · rw [if_pos hbs, pickBestAux_inv terms ss s (sentHits terms s)]
      by_cases hM : natMaxList (ss.map (sentHits terms)) ≤ sentHits terms s
      · rw [if_pos hM]
        have hmax : max (sentHits terms s) (natMaxList (ss.map (sentHits terms))) =
            sentHits terms s := by omega
        rw [hmax, if_neg (by omega), List.find?_cons_of_pos _ (by simp)]
        simp
      · push_neg at hM
        have hmax : max (sentHits terms s) (natMaxList (ss.map (sentHits terms))) =
            natMaxList (ss.map (sentHits terms)) := by omega
        rw [if_neg (by omega), hmax, if_neg (by omega),
          List.find?_cons_of_neg _ (by simp; omega)]
    · rw [if_neg hbs, pickBestAux_inv terms ss b bs]
      push_neg at hbs
      by_cases hM : natMaxList (ss.map (sentHits terms)) ≤ bs
      · rw [if_pos hM, if_pos (by omega)]
      · push_neg at hM
        have hmax : max (sentHits terms s) (natMaxList (ss.map (sentHits terms))) =
            natMaxList (ss.map (sentHits terms)) := by omega
        rw [if_neg (by omega), hmax, if_neg (by omega),
          List.find?_cons_of_neg _ (by simp; omega)]

/-! ## Claim theorems -/

/-- C4: for every adapter outcome, document store state, query and options
whose (defaulted) limit lies in [1, 20], the sequence returned by
`searchCases` has length at most that limit. -/
theorem searchCases_length_le_limit (adapter : Option (List VectorHit))
    (cases : List Case) (q : Str) (opts : SearchOptions)
    (h1 : 1 ≤ optsLimit opts) (h2 : optsLimit opts ≤ 20) :
    (searchCases adapter cases q opts).length ≤ optsLimit opts := by
  rw [searchCases]
  rcases hf : finalMapE (searchSimilar adapter) cases q opts with e | m
  · simp
  · simp only []
    rw [List.length_take]
    omega

/-- Witness for C4 at the default options (limit 5) on an empty store. -/
theorem searchCases_length_le_limit_witness :
    1 ≤ optsLimit {} ∧ optsLimit {} ≤ 20 ∧
      (searchCases none [] [] {}).length ≤ optsLimit {} :=
  ⟨by decide, by decide,
    searchCases_length_le_limit none [] [] {} (by decide) (by decide)⟩

/-- On a failed adapter the search degrades to the keyword-only pipeline
(shared computation behind the C1 theorem and its counterexample). -/
theorem searchCases_none_eq_keywordOnly (cases : List Case) (q : Str)
    (opts : SearchOptions) :
    searchCases none cases q opts =
      match performKeywordSearch (applyFilters cases opts) q with
      | .error _ => []
      | .ok ms =>
        (sortDesc (mapValues (insertKeyword (optsLimit opts) [] ms))).take (optsLimit opts) := by
  rw [searchCases]
  have h0 : searchSimilar none = [] := rfl
  rw [h0]
  simp only [finalMapE]
  have h2 : buildVectorMap (applyFilters cases opts) q [] = [] := rfl
  rw [h2]
  have h3 : (applyFilters cases opts).filter (fun c => !mapHas [] c.id) =
      applyFilters cases opts := by
    apply List.filter_eq_self.mpr
    intro a _
    rfl
  rw [h3]
  rcases hk : performKeywordSearch (applyFilters cases opts) q with e | ms <;>
    simp only [hk]

/-- C1 (amended): when the embedding call or the vector-index query throws,
the error is absorbed inside `searchSimilar` (part_002 lines 235-238), which
returns an empty hit list; no error reaches the caller, and `searchCases`
proceeds with the keyword phase over the filtered store — the result is
exactly the keyword-only result list (which need not be empty). -/
theorem searchCases_adapter_fault_keyword_only (cases : List Case) (q : Str)
    (opts : SearchOptions) :
    searchCases none cases q opts =
      match performKeywordSearch (applyFilters cases opts) q with
      | .error _ => []
      | .ok ms =>
        (sortDesc (mapValues (insertKeyword (optsLimit opts) [] ms))).take (optsLimit opts) :=
  searchCases_none_eq_keywordOnly cases q opts

/-- Counterexample to C1 as stated: with a failed adapter (`none`) the search
still returns a nonempty keyword-scored result list for a store whose only
document matches the query, instead of the empty list the claim promises. -/
theorem searchCases_adapter_fault_nonempty :
    searchCases none [caseC1] ("stripe".toList) {} ≠ [] := by
  rw [searchCases_none_eq_keywordOnly]
  have happ : applyFilters [caseC1] {} = [caseC1] := rfl
  rw [happ, performKeywordSearch_ok [caseC1] ("stripe".toList) (by decide)]
  have hterms : queryTermsOf ("stripe".toList) = [("stripe".toList)] := by decide
  have hpos : (0:ℚ) < scoreCaseOk (queryTermsOf ("stripe".toList)) caseC1 := by
    rw [hterms, scoreCaseOk]
    have h1 : containsSub ("stripe".toList) (lowerStr caseC1.title) = true := by decide
    have h2 : caseC1.tags.any
        (fun tag => containsSub ("stripe".toList) (lowerStr tag)) = true := by decide
    have h3 : countOccs ("stripe".toList) (searchTextOf caseC1) = 3 := by decide
    simp only [List.map_cons, List.map_nil, List.sum_cons, List.sum_nil, add_zero,
      termScore, h1, h2, h3, if_true]
    norm_num
  have hfil : ([mkKwResult ("stripe".toList) caseC1
      (scoreCaseOk (queryTermsOf ("stripe".toList)) caseC1)]).filter
        (fun r => decide (0 < r.relevanceScore)) =
      [mkKwResult ("stripe".toList) caseC1
        (scoreCaseOk (queryTermsOf ("stripe".toList)) caseC1)] := by
    rw [List.filter_cons]
    rw [show (decide (0 < (mkKwResult ("stripe".toList) caseC1
      (scoreCaseOk (queryTermsOf ("stripe".toList)) caseC1)).relevanceScore)) = true
      from decide_eq_true hpos]
    rfl
  simp only [List.map_cons, List.map_nil, hfil]
  simp [sortDesc, insertDesc, insertKeyword, mapSet, mapValues, optsLimit]

/-- C3: whenever the `try` block completes with result mapping `m`, the list
returned by `searchCases` is the values of `m` sorted stably by descending
`relevanceScore` and truncated to the limit: the sort is a permutation of
the values, pairwise descending, and preserves the relative order of
equal-score entries (so vector insertions stay ahead of equal-score keyword
insertions, and keyword insertions keep their own order). -/
theorem searchCases_sorted_stable_truncated (adapter : Option (List VectorHit))
    (cases : List Case) (q : Str) (opts : SearchOptions) (m : RMap)
    (hm : finalMapE (searchSimilar adapter) cases q opts = .ok m) :
    searchCases adapter cases q opts = (sortDesc (mapValues m)).take (optsLimit opts) ∧
    (sortDesc (mapValues m)).Perm (mapValues m) ∧
    (sortDesc (mapValues m)).Pairwise (fun a b => b.relevanceScore ≤ a.relevanceScore) ∧
    ∀ s : ℚ, (sortDesc (mapValues m)).filter (fun r => decide (r.relevanceScore = s)) =
      (mapValues m).filter (fun r => decide (r.relevanceScore = s)) := by
  refine ⟨?_, sortDesc_perm _, sortDesc_pairwise _, fun s => sortDesc_filter_eq s _⟩
  rw [searchCases, hm]

/-- Witness for C3 on concrete inputs whose `try` block yields the empty
mapping. -/
theorem searchCases_sorted_stable_truncated_witness :
    finalMapE (searchSimilar (some [])) [] [] {} = .ok [] ∧
      (searchCases (some []) [] [] {} = (sortDesc (mapValues [])).take (optsLimit {}) ∧
      (sortDesc (mapValues [])).Perm (mapValues []) ∧
      (sortDesc (mapValues [])).Pairwise (fun a b => b.relevanceScore ≤ a.relevanceScore) ∧
      ∀ s : ℚ, (sortDesc (mapValues [])).filter (fun r => decide (r.relevanceScore = s)) =
        (mapValues []).filter (fun r => decide (r.relevanceScore = s))) :=
  ⟨rfl, searchCases_sorted_stable_truncated (some []) [] [] {} [] rfl⟩

/-- C5: every result returned by `searchCases` — vector-matched or
keyword-matched — is built from a document of the store that survived the
filters, copying its id and category; hence when a (nonempty) category or
difficulty filter is provided, the source document's field equals the
requested value exactly, and so does the result's own `category` field. -/
theorem searchCases_filter_correct (adapter : Option (List VectorHit))
    (cases : List Case) (q : Str) (opts : SearchOptions) (r : CaseSearchResult)
    (hr : r ∈ searchCases adapter cases q opts) :
    ∃ c, c ∈ cases ∧ r.id = c.id ∧ r.category = c.category ∧
      (∀ s, opts.category = some s → s ≠ [] → c.category = s ∧ r.category = s) ∧
      (∀ s, opts.difficulty = some s → s ≠ [] → c.difficulty = s) := by
  rw [searchCases] at hr
  rcases hf : finalMapE (searchSimilar adapter) cases q opts with e | m
  · rw [hf] at hr
    simp at hr
  · rw [hf] at hr
    simp only at hr
    have hr2 : r ∈ sortDesc (mapValues m) := List.mem_of_mem_take hr
    have hr3 : r ∈ mapValues m := (sortDesc_perm _).subset hr2
    rw [finalMapE] at hf
    rcases hk : performKeywordSearch
        ((applyFilters cases opts).filter
          (fun c => !mapHas (buildVectorMap (applyFilters cases opts) q
            (searchSimilar adapter)) c.id)) q with e | ms
    · simp only [hk] at hf
      exact Except.noConfusion hf
    · simp only [hk] at hf
      injection hf with hf2
      subst hf2
      rcases mem_mapValues_insertKeyword _ r ms _ hr3 with hvec | hkw
      · rcases mem_values_buildVectorMap _ _ _ r hvec with ⟨c, hcf, h, rfl⟩
        rcases mem_applyFilters cases opts c hcf with ⟨hcc, hcat, hdif⟩
        exact ⟨c, hcc, rfl, rfl, fun s hs hne => ⟨hcat s hs hne, hcat s hs hne⟩, hdif⟩
      · rcases mem_performKeywordSearch_ok _ _ _ hk r hkw with ⟨c, hcf, s, rfl⟩
        have hcf2 : c ∈ applyFilters cases opts := List.mem_of_mem_filter hcf
        rcases mem_applyFilters cases opts c hcf2 with ⟨hcc, hcat, hdif⟩
        exact ⟨c, hcc, rfl, rfl, fun s hs hne => ⟨hcat s hs hne, hcat s hs hne⟩, hdif⟩

/-- Witness for C5: a query served from the vector phase under both
filters. -/
theorem searchCases_filter_correct_witness :
    (mkVecResult ("ab".toList) caseC1 hitA1) ∈
        searchCases (some [hitA1]) [caseC1] ("ab".toList) optsC5 ∧
      ∃ c, c ∈ [caseC1] ∧
        (mkVecResult ("ab".toList) caseC1 hitA1).id = c.id ∧
        (mkVecResult ("ab".toList) caseC1 hitA1).category = c.category ∧
        (∀ s, optsC5.category = some s → s ≠ [] →
          c.category = s ∧ (mkVecResult ("ab".toList) caseC1 hitA1).category = s) ∧
        (∀ s, optsC5.difficulty = some s → s ≠ [] → c.difficulty = s) :=
  ⟨by decide,
    searchCases_filter_correct (some [hitA1]) [caseC1] ("ab".toList) optsC5
      (mkVecResult ("ab".toList) caseC1 hitA1) (by decide)⟩

/-- C6 (amended): when two vector hits share an id present in the filtered
set, the later hit does not get ignored: `Map.set` overwrites, so the
mapping stores the `SearchResult` built from the LAST hit with that id
(while the entry keeps its original position in insertion order). -/
theorem buildVectorMap_last_duplicate_wins (filtered : List Case) (q : Str)
    (hits : List VectorHit) (i : Str) (c : Case)
    (hc : filtered.find? (fun c => c.id == i) = some c) :
    mapLookup (buildVectorMap filtered q hits) i =
      ((hits.filter (fun h => h.id == i)).getLast?).map (fun h => mkVecResult q c h) := by
  rw [buildVectorMap, mapLookup_foldl_vecStep, hc]
  rcases hfl : (hits.filter (fun h => h.id == i)).getLast? with _ | h
  · rw [hfl]
    rfl
  · rw [hfl]
    rfl

/-- Counterexample to C6 as stated: with two vector hits of id `a` (raw
scores 1 then 2), the mapping keeps the `SearchResult` of the second hit
(score 2), not the first — the later duplicate overwrites. -/
theorem buildVectorMap_first_hit_overwritten :
    mapLookup (buildVectorMap [caseC1] ("q".toList) [hitA1, hitA2]) ("a".toList) =
      some (mkVecResult ("q".toList) caseC1 hitA2) ∧
    mkVecResult ("q".toList) caseC1 hitA2 ≠ mkVecResult ("q".toList) caseC1 hitA1 := by
  constructor
  · decide
  · decide

/-- Witness for C6 on the duplicate-hit example. -/
theorem buildVectorMap_last_duplicate_wins_witness :
    ([caseC1].find? (fun c => c.id == ("a".toList)) = some caseC1) ∧
      mapLookup (buildVectorMap [caseC1] ("q".toList) [hitA1, hitA2]) ("a".toList) =
        (([hitA1, hitA2].filter (fun h => h.id == ("a".toList))).getLast?).map
          (fun h => mkVecResult ("q".toList) caseC1 h) :=
  ⟨by decide,
    buildVectorMap_last_duplicate_wins [caseC1] ("q".toList) [hitA1, hitA2]
      ("a".toList) caseC1 (by decide)⟩

/-- C2 (amended): for a query whose surviving tokens consist of
regex-neutral (alphanumeric) characters, `performKeywordSearch` raises no
error and returns exactly the candidates scored by
`keywordScoreSpec` — +3 per token that is a substring of the lowercased
title, +2 per token that is a substring of some lowercased tag, +0.5 per
NON-OVERLAPPING occurrence of the token in the lowercase composite of
title, tags and content — with the score-0 documents excluded and the rest
sorted descending; the computation is a pure function of its inputs. -/
theorem performKeywordSearch_spec (cases : List Case) (q : Str)
    (hplain : (queryTermsOf q).all isPlainTerm = true) :
    performKeywordSearch cases q =
      .ok (sortDesc ((cases.map (fun c => mkKwResult q c (keywordScoreSpec q c))).filter
        (fun r => decide (¬ r.relevanceScore = 0)))) := by
  have hplain' : ∀ t ∈ queryTermsOf q, isPlainTerm t = true :=
    fun t ht => List.all_eq_true.mp hplain t ht
  rw [performKeywordSearch_ok cases q hplain']
  have hmap : cases.map (fun c => mkKwResult q c (scoreCaseOk (queryTermsOf q) c)) =
      cases.map (fun c => mkKwResult q c (keywordScoreSpec q c)) :=
    List.map_congr_left (fun c _ => by rw [scoreCaseOk_eq_keywordScoreSpec])
  rw [hmap]
  congr 1
  congr 1
  apply List.filter_congr
  intro r hr
  rcases List.mem_map.mp hr with ⟨c, _, rfl⟩
  have hnn := keywordScoreSpec_nonneg q c
  rw [decide_eq_decide]
  show 0 < keywordScoreSpec q c ↔ ¬ keywordScoreSpec q c = 0
  constructor
  · intro h h0
    rw [h0] at h
    exact lt_irrefl 0 h
  · intro h
    rcases lt_or_eq_of_le hnn with h2 | h2
    · exact h2
    · exact absurd h2.symm h

/-- Witness for C2 on a concrete all-alphanumeric query. -/
theorem performKeywordSearch_spec_witness :
    ((queryTermsOf ("stripe".toList)).all isPlainTerm = true) ∧
      performKeywordSearch [caseC1] ("stripe".toList) =
        .ok (sortDesc (([caseC1].map (fun c => mkKwResult ("stripe".toList) c
          (keywordScoreSpec ("stripe".toList) c))).filter
          (fun r => decide (¬ r.relevanceScore = 0)))) :=
  ⟨by decide, performKeywordSearch_spec [caseC1] ("stripe".toList) (by decide)⟩

/-- Counterexample to C2 as stated: for the token `aaa` and the content
`aaaaa`, the code counts 1 non-overlapping occurrence (score 0.5), while
the claim's overlapping count is 3 (score 1.5). -/
theorem keywordScore_overlap_cex :
    performKeywordSearch [caseC2ex] ("aaa".toList) =
      .ok [mkKwResult ("aaa".toList) caseC2ex (1 / 2)] ∧
    keywordScoreClaim ("aaa".toList) caseC2ex = 3 / 2 ∧
    ¬ ((1 : ℚ) / 2 = 3 / 2) := by
  have hterms : queryTermsOf ("aaa".toList) = [("aaa".toList)] := by decide
  have hscore : scoreCaseOk (queryTermsOf ("aaa".toList)) caseC2ex = 1 / 2 := by
    rw [hterms, scoreCaseOk]
    have h1 : containsSub ("aaa".toList) (lowerStr caseC2ex.title) = false := by decide
    have h2 : caseC2ex.tags.any
        (fun tag => containsSub ("aaa".toList) (lowerStr tag)) = false := by decide
    have h3 : countOccs ("aaa".toList) (searchTextOf caseC2ex) = 1 := by decide
    simp only [List.map_cons, List.map_nil, List.sum_cons, List.sum_nil, add_zero,
      termScore, h1, h2, h3, Bool.false_eq_true, if_false]
    norm_num
  refine ⟨?_, ?_, by norm_num⟩
  · rw [performKeywordSearch_ok [caseC2ex] ("aaa".toList)
      (by decide), List.map_cons, List.map_nil, hscore]
    have hfil : ([mkKwResult ("aaa".toList) caseC2ex (1 / 2)]).filter
        (fun r => decide (0 < r.relevanceScore)) =
        [mkKwResult ("aaa".toList) caseC2ex (1 / 2)] := by
      rw [List.filter_cons]
      rw [show (decide (0 < (mkKwResult ("aaa".toList) caseC2ex
        (1 / 2)).relevanceScore)) = true from decide_eq_true
          (by simp only [mkKwResult]; norm_num)]
      rfl
    rw [hfil]
    rfl
  · rw [keywordScoreClaim, hterms]
    have h1 : ¬ ("aaa".toList <:+: lowerStr caseC2ex.title) := by decide
    have h2 : ¬ (∃ tag ∈ caseC2ex.tags, ("aaa".toList) <:+: lowerStr tag) := by decide
    have h3 : countOccsOverlap ("aaa".toList) (searchTextOf caseC2ex) = 3 := by decide
    simp only [List.map_cons, List.map_nil, List.sum_cons, List.sum_nil, add_zero,
      tokenScoreClaim, h1, h2, h3, if_false, if_neg]
    norm_num

/-- C7 (amended): the excerpt operation selects the earliest sentence whose
hit count — computed WITH MULTIPLICITY over the whitespace token list of
the query (a repeated token counts once per repetition, with no length
filter) — is maximal, and falls back to the first sentence (or the empty
string when there is none) when no sentence scores above zero; the returned
excerpt is that sentence, truncated as for C8. -/
theorem chosenSentence_spec (content q : Str) :
    chosenSentence content q =
      (if natMaxList ((sentencesOf content).map (sentHits (excerptTermsOf q))) = 0 then
        (sentencesOf content).headD []
      else
        ((sentencesOf content).find? (fun s => sentHits (excerptTermsOf q) s ==
          natMaxList ((sentencesOf content).map (sentHits (excerptTermsOf q))))).getD []) ∧
    createExcerpt content q 200 =
      (if 200 < (chosenSentence content q).length then
        (chosenSentence content q).take 197 ++ ("...".toList)
      else chosenSentence content q) := by
  constructor
  · simp only [chosenSentence]
    rw [pickBestAux_inv]
    by_cases hM : natMaxList ((sentencesOf content).map (sentHits (excerptTermsOf q))) = 0
    · rw [if_pos (by omega), if_pos hM]
    · rw [if_neg (by omega), if_neg hM]
  · rfl

/-- Counterexample to C7 as stated: on the content `x foo. bar w baz.` and
the query `foo foo bar baz`, the code (counting the repeated token twice)
keeps the first sentence, while the claim's distinct-token rule selects the
second. -/
theorem createExcerpt_distinct_cex :
    createExcerpt contentC7 queryC7 200 = "x foo".toList ∧
    chosenSentenceClaim contentC7 queryC7 = "bar w baz".toList ∧
    ¬ (("x foo".toList : Str) = "bar w baz".toList) := by
  refine ⟨by decide, by decide, by decide⟩

/-- C8 (amended): for every `maxLength ≥ 3` the excerpt has length at most
`maxLength`; it is the chosen sentence unchanged when that sentence fits,
and otherwise its first `maxLength - 3` characters with `...` appended.
(For `maxLength < 3` the bound fails — see the counterexample.) -/
theorem createExcerpt_length_spec (content q : Str) (maxLength : Nat)
    (h3 : 3 ≤ maxLength) :
    (createExcerpt content q maxLength).length ≤ maxLength ∧
    ((chosenSentence content q).length ≤ maxLength →
      createExcerpt content q maxLength = chosenSentence content q) ∧
    (maxLength < (chosenSentence content q).length →
      createExcerpt content q maxLength =
        (chosenSentence content q).take (maxLength - 3) ++ ("...".toList)) := by
  refine ⟨?_, ?_, ?_⟩
  · simp only [createExcerpt]
    by_cases hlen : maxLength < (chosenSentence content q).length
    · rw [if_pos hlen, List.length_append, List.length_take]
      have hdots : ("...".toList : Str).length = 3 := rfl
      rw [hdots]
      omega
    · rw [if_neg hlen]
      omega
  · intro hle
    simp only [createExcerpt]
    rw [if_neg (by omega)]
  · intro hlt
    simp only [createExcerpt]
    rw [if_pos hlt]

/-- Witness for C8 at `maxLength = 10`. -/
theorem createExcerpt_length_spec_witness :
    3 ≤ 10 ∧
      ((createExcerpt ("hello.".toList) ("x".toList) 10).length ≤ 10 ∧
      ((chosenSentence ("hello.".toList) ("x".toList)).length ≤ 10 →
        createExcerpt ("hello.".toList) ("x".toList) 10 =
          chosenSentence ("hello.".toList) ("x".toList)) ∧
      (10 < (chosenSentence ("hello.".toList) ("x".toList)).length →
        createExcerpt ("hello.".toList) ("x".toList) 10 =
          (chosenSentence ("hello.".toList) ("x".toList)).take (10 - 3) ++ ("...".toList))) :=
  ⟨by decide, createExcerpt_length_spec ("hello.".toList) ("x".toList) 10 (by decide)⟩

/-- Counterexample to C8 as stated: at `maxLength = 2` the truncation
produces `...` of length 3 > 2. -/
theorem createExcerpt_length_cex :
    ¬ ((createExcerpt ("hello.".toList) ("x".toList) 2).length ≤ 2) := by decide

/-- C10: a query whose single surviving token is `(((` — longer than two
characters but an invalid regular-expression pattern — makes the RegExp
construction inside keyword scoring throw; the catch in `searchCases`
absorbs the error into the empty result list even though the store holds a
document whose title contains `(((` literally, and no error escapes. -/
theorem searchCases_invalid_regex_empty :
    searchCases (some []) [caseC10ex] ("(((".toList) {} = [] ∧
      containsSub ("(((".toList) (lowerStr caseC10ex.title) = true := by
  refine ⟨by decide, by decide⟩

/-- C9: appending one extra occurrence of a query token that is matched in
a document to that document's content strictly increases its keyword score
(the +0.5-per-occurrence count is uncapped), provided the query's tokens
are regex-neutral so that the score is defined at all. -/
theorem keywordScore_monotone_append (q : Str) (c : Case) (t : Str)
    (ht : t ∈ queryTermsOf q)
    (hplain : (queryTermsOf q).all isPlainTerm = true)
    (hmatched : 0 < countOccs t (searchTextOf c)) :
    ∃ s s' : ℚ, scoreCase (queryTermsOf q) c = .ok s ∧
      scoreCase (queryTermsOf q) { c with content := c.content ++ t } = .ok s' ∧
      s < s' := by
  have hplain' : ∀ u ∈ queryTermsOf q, isPlainTerm u = true :=
    fun u hu => List.all_eq_true.mp hplain u hu
  have hlow : lowerStr t = t := lowerStr_of_mem_queryTerms q t ht
  have htne : t ≠ [] := ne_nil_of_mem_queryTerms q t ht
  have hst : searchTextOf { c with content := c.content ++ t } = searchTextOf c ++ t := by
    rw [searchTextOf, searchTextOf]
    show lowerStr (c.title ++ (' ' :: (joinSpaces c.tags ++ (' ' :: (c.content ++ t))))) = _
    rw [show c.title ++ (' ' :: (joinSpaces c.tags ++ (' ' :: (c.content ++ t)))) =
        (c.title ++ (' ' :: (joinSpaces c.tags ++ (' ' :: c.content)))) ++ t by
      simp [List.append_assoc]]
    rw [lowerStr, List.map_append]
    rw [show List.map Char.toLower t = lowerStr t from rfl, hlow]
    rfl
  refine ⟨scoreCaseOk (queryTermsOf q) c,
    scoreCaseOk (queryTermsOf q) { c with content := c.content ++ t },
    scoreCase_ok _ _ hplain', scoreCase_ok _ _ hplain', ?_⟩
  rw [scoreCaseOk, scoreCaseOk, hst]
  apply List.sum_lt_sum
  · intro u hu
    simp only [termScore]
    have hcount : countOccs u (searchTextOf c) ≤ countOccs u (searchTextOf c ++ t) :=
      countOccs_append_ge u (ne_nil_of_mem_queryTerms q u hu) _ t
    have hmul : (countOccs u (searchTextOf c) : ℚ) * (1 / 2) ≤
        (countOccs u (searchTextOf c ++ t) : ℚ) * (1 / 2) := by
      apply mul_le_mul_of_nonneg_right _ (by norm_num)
      exact_mod_cast hcount
    linarith
  · refine ⟨t, ht, ?_⟩
    simp only [termScore]
    have hcount : countOccs t (searchTextOf c) + 1 ≤ countOccs t (searchTextOf c ++ t) :=
      countOccs_append_self t htne _
    have hlt : (countOccs t (searchTextOf c) : ℚ) <
        (countOccs t (searchTextOf c ++ t) : ℚ) := by
      exact_mod_cast (by omega : countOccs t (searchTextOf c) <
        countOccs t (searchTextOf c ++ t))
    have hmul : (countOccs t (searchTextOf c) : ℚ) * (1 / 2) <
        (countOccs t (searchTextOf c ++ t) : ℚ) * (1 / 2) :=
      mul_lt_mul_of_pos_right hlt (by norm_num)
    linarith

/-- Witness for C9: appending the token `stripe` to the matching document. -/
theorem keywordScore_monotone_append_witness :
    (("stripe".toList) ∈ queryTermsOf ("stripe".toList)) ∧
    ((queryTermsOf ("stripe".toList)).all isPlainTerm = true) ∧
    (0 < countOccs ("stripe".toList) (searchTextOf caseC1)) ∧
    (∃ s s' : ℚ, scoreCase (queryTermsOf ("stripe".toList)) caseC1 = .ok s ∧
      scoreCase (queryTermsOf ("stripe".toList))
        { caseC1 with content := caseC1.content ++ ("stripe".toList) } = .ok s' ∧
      s < s') :=
  ⟨by decide, by decide, by decide,
    keywordScore_monotone_append ("stripe".toList) caseC1 ("stripe".toList)
      (by decide) (by decide) (by decide)⟩
